import Mathlib

/-!
Shallow embedding of the `tempered` rate-limited request scheduler
(`src/tempered/limits.py`, `src/tempered/manager.py`, and the response
classifier `RiotRequestManager._handle_response` of
`src/scripts/download_lol_matches.py`).

Time values are modelled as rationals (`ℚ`).  `await asyncio.sleep(d)`
is modelled by advancing the wall clock to `max now (now + d)` — i.e. a
negative sleep argument returns immediately, as `asyncio.sleep` does.
Each `pace` step takes the current wall-clock time `now` as an argument
and returns the time at which the call returns to the caller, together
with the successor state.
-/

/-- `AbsoluteRateLimit` (spec name: HardCap) from `limits.py`.
`count` is the configured cap, `_count` the calls since the last reset. -/
structure AbsoluteRateLimit where
  count : ℕ
  _count : ℕ
deriving DecidableEq, Repr

namespace AbsoluteRateLimit

/-- `AbsoluteRateLimit.reset`: sets `self._count = 0`. -/
def reset (s : AbsoluteRateLimit) : AbsoluteRateLimit :=
  { s with _count := 0 }

/-- `AbsoluteRateLimit.__call__`: raises `RateLimitException` when
`self._count >= self.count`, leaving the state untouched (the raise
happens before the increment); otherwise increments `_count`.
The coroutine never awaits, so no sleep/suspension is modelled. -/
def pace (s : AbsoluteRateLimit) : Except String Unit × AbsoluteRateLimit :=
  if s.count ≤ s._count then
    (Except.error "absolute rate limit reached", s)
  else
    (Except.ok (), { s with _count := s._count + 1 })

/-- Sequential iteration of `pace`: the list of outcomes and the final state. -/
def paceN : ℕ → AbsoluteRateLimit → List (Except String Unit) × AbsoluteRateLimit
  | 0, s => ([], s)
  | n + 1, s =>
    let (r, s1) := pace s
    let (rs, s2) := paceN n s1
    (r :: rs, s2)

end AbsoluteRateLimit

/-- `DurationRateLimit` (spec name: SlidingWindowCap) from `limits.py`:
fixed window of length `duration` starting at `_time`, at most `count`
calls per window counted in `_count`. -/
structure DurationRateLimit where
  duration : ℚ
  count : ℕ
  _time : ℚ
  _count : ℕ
deriving DecidableEq, Repr

namespace DurationRateLimit

/-- `DurationRateLimit.__call__`.  Returns `((returnTime, windowStart'), s')`
where `returnTime` is when the call returns to the caller and
`windowStart'` is `self._time` at the moment of return (the window the
returning call is accounted to).  Mirrors the Python body:
if the elapsed time exceeds `duration`, `reset(current_time)` first;
then if `_count >= count`, sleep for the remaining window time and
`reset(time())`; finally `_count += 1`. -/
def paceStep (s : DurationRateLimit) (now : ℚ) : (ℚ × ℚ) × DurationRateLimit :=
  let s1 := if s.duration < now - s._time then { s with _time := now, _count := 0 } else s
  if s1.count ≤ s1._count then
    let wake := max now (s1._time + s1.duration)
    ((wake, wake), { s1 with _time := wake, _count := 1 })
  else
    ((now, s1._time), { s1 with _count := s1._count + 1 })

/-- Run a sequence of `pace()` calls at the given wall-clock call times. -/
def trace (s : DurationRateLimit) : List ℚ → List (ℚ × ℚ)
  | [] => []
  | now :: rest =>
    let (p, s1) := paceStep s now
    p :: trace s1 rest

end DurationRateLimit

/-- Number of returns in a trace accounted to the window starting at `w`. -/
def tagCount (w : ℚ) (t : List (ℚ × ℚ)) : ℕ :=
  (t.filter fun p => decide (p.2 = w)).length

/-- A list of call times is realizable by a single caller against the
produced return times: call times never decrease, and each call happens
no earlier than the previous call returned. -/
def admissibleRun (rets calls : List ℚ) : Prop :=
  List.Chain' (· ≤ ·) calls ∧ ∀ p ∈ List.zip rets calls.tail, p.1 ≤ p.2

instance (rets calls : List ℚ) : Decidable (admissibleRun rets calls) := by
  unfold admissibleRun; infer_instance

/-- `RandomizedDurationRateLimit` (spec name: JitteredSlidingWindowCap)
from `limits.py`.  `_request_times` is the precomputed list of slot
times of the current window ("slots"). -/
structure RandomizedDurationRateLimit where
  duration : ℚ
  count : ℕ
  _time : ℚ
  _count : ℕ
  _request_times : List ℚ
deriving DecidableEq, Repr

namespace RandomizedDurationRateLimit

/-- `RandomizedDurationRateLimit._new_request_times`: draws `count`
uniform samples in `[0, duration]` (`rand_fewer_elements` is `0` in the
source), adds `timestamp` to each, and sorts ascending
(`request_times.sort()` — modelled by insertion sort, extensionally the
same as Python list sort on a total order).  The randomness of
`uniform(0.0, duration)` is passed in as the `draws` argument. -/
def new_request_times (timestamp : ℚ) (count : ℕ) (draws : List ℚ) : List ℚ :=
  List.insertionSort (· ≤ ·) ((draws.take count).map fun u => timestamp + u)

/-- `RandomizedDurationRateLimit.reset`. -/
def reset (s : RandomizedDurationRateLimit) (current_time : ℚ) (draws : List ℚ) :
    RandomizedDurationRateLimit :=
  { s with _time := current_time, _count := 0,
           _request_times := new_request_times current_time s.count draws }

/-- `RandomizedDurationRateLimit.__call__`.  If all slots are consumed
(`_count >= len(_request_times)`), sleep until the window closes and
reset; otherwise, if the wall clock has passed the window's end, reset
early.  Then `self._request_times[self._count]` is read — an IndexError
(modelled as `Except.error ()`) when the slot list is too short — the
consumption counter is incremented, and the call sleeps until the slot
time if it is still in the future.  Returns `(returnTime, s')`. -/
def pace (s : RandomizedDurationRateLimit) (now : ℚ) (draws : List ℚ) :
    Except Unit (ℚ × RandomizedDurationRateLimit) :=
  let p : RandomizedDurationRateLimit × ℚ :=
    if s._request_times.length ≤ s._count then
      let wake := max now (s._time + s.duration)
      (s.reset wake draws, wake)
    else if s.duration < now - s._time then
      (s.reset now draws, now)
    else
      (s, now)
  match p.1._request_times.get? p.1._count with
  | none => Except.error ()
  | some t => Except.ok (max p.2 t, { p.1 with _count := p.1._count + 1 })

/-- Wellformedness of a limiter state: the slot list is sorted and all
slots lie inside the current window `[_time, _time + duration]`.  This
holds for every state the constructor or `reset` can produce from
in-range draws. -/
def WF (s : RandomizedDurationRateLimit) : Prop :=
  s._request_times.Sorted (· ≤ ·) ∧
    ∀ x ∈ s._request_times, s._time ≤ x ∧ x ≤ s._time + s.duration

end RandomizedDurationRateLimit

/-!
## RequestManager (`manager.py`)

`RequestManager.schedule` puts the tuple `(priority, time(), url, callback)`
into an `asyncio.PriorityQueue`.  An entry is modelled by `Entry`; the
callback object is modelled by an identifier `cb : ℕ` whose Python
equality is object identity and which supports no order comparison
(comparing two distinct callbacks raises `TypeError`).
-/

/-- One element of the shared priority queue:
the tuple `(priority, time(), url, callback)` built by
`RequestManager.schedule`. -/
structure Entry where
  priority : ℤ
  ts : ℚ
  url : String
  cb : ℕ
deriving DecidableEq, Repr

/-- Python tuple comparison `a < b` on queue entries, as CPython performs
it inside `heapq`: scan for the first component where the tuples differ
(via `==`), and compare that component with `<`.  When the first three
components are equal, the comparison falls through to the callback
objects, which implement `==` (identity) but not `<`: comparing two
distinct callbacks raises `TypeError`, modelled as `Except.error ()`.
Two fully identical tuples compare `False` without an error. -/
def entryLtPy (a b : Entry) : Except Unit Bool :=
  if a.priority ≠ b.priority then Except.ok (decide (a.priority < b.priority))
  else if a.ts ≠ b.ts then Except.ok (decide (a.ts < b.ts))
  else if a.url ≠ b.url then Except.ok (decide (a.url < b.url))
  else if a.cb ≠ b.cb then Except.error ()
  else Except.ok false

/-- The total lexicographic key `(priority, ts, url, cb)` that Python
tuple comparison decides whenever it does not raise. -/
def entryKey (e : Entry) : ℤ ×ₗ ℚ ×ₗ String ×ₗ ℕ :=
  toLex (e.priority, toLex (e.ts, toLex (e.url, e.cb)))

/-- `heapq.heappush` of `e2` into the one-element heap `[e1]`
(`await self._request_queue.put(...)` with one entry already queued):
`_siftdown` performs exactly one comparison, `newitem < parent`.
An `Except.error` is the `TypeError` escaping from `put`. -/
def heapPushSecond (e1 e2 : Entry) : Except Unit (List Entry) := do
  let b ← entryLtPy e2 e1
  pure (if b then [e2, e1] else [e1, e2])

/-- One `get()` from the priority queue: `heapq.heappop` returns the
smallest entry of the heap.  Modelled as a linear scan for a minimal
entry under Python tuple comparison; `Except.error` is a `TypeError`
raised by an entry comparison (the `except TypeError` branch of
`_request_handler`, which re-raises and kills the lane). -/
def selectMin (e : Entry) : List Entry → Except Unit (Entry × List Entry)
  | [] => Except.ok (e, [])
  | x :: xs => do
    let b ← entryLtPy x e
    if b then
      let (m, rest) ← selectMin x xs
      pure (m, e :: rest)
    else
      let (m, rest) ← selectMin e xs
      pure (m, x :: rest)

/-- Repeatedly dequeue until the queue is empty (fuel-indexed helper). -/
def dequeueAllGo : ℕ → List Entry → Except Unit (List Entry)
  | _, [] => Except.ok []
  | 0, _ :: _ => Except.error ()
  | n + 1, e :: es => do
    let (m, rest) ← selectMin e es
    let out ← dequeueAllGo n rest
    pure (m :: out)

/-- The order in which the entries currently in the queue are handed out
by successive `get()` calls. -/
def dequeueAll (q : List Entry) : Except Unit (List Entry) :=
  dequeueAllGo q.length q

/-- The pairwise guarantee claimed for the dequeue order: the earlier
dequeued entry has the numerically smaller-or-equal priority, and among
equal priorities the smaller-or-equal enqueue timestamp. -/
def dequeuedBefore (a b : Entry) : Prop :=
  a.priority ≤ b.priority ∧ (a.priority = b.priority → a.ts ≤ b.ts)

/-- The shared `asyncio.PriorityQueue` of `RequestManager.__init__`:
`maxsize` is the `max_requests_inflight` constructor argument
(default `0`). -/
structure RequestQueue where
  maxsize : ℤ
  items : List Entry
deriving DecidableEq, Repr

namespace RequestQueue

/-- `asyncio.Queue.full()`: `False` when `maxsize <= 0`, else
`qsize() >= maxsize`. -/
def full (q : RequestQueue) : Bool :=
  if q.maxsize ≤ 0 then false else decide (q.maxsize ≤ (q.items.length : ℤ))

/-- `RequestManager.schedule(url, callback, priority)` awaits
`put((priority, time(), url, callback))`.  `put` suspends the caller
exactly when the queue is full; otherwise it appends the entry and
returns immediately.  The returned `Bool` records whether the caller
was suspended (backpressure). -/
def schedule (q : RequestQueue) (url : String) (callback : ℕ) (priority : ℤ)
    (now : ℚ) : Bool × RequestQueue :=
  if q.full then (true, q)
  else (false, { q with items := q.items ++ [⟨priority, now, url, callback⟩] })

end RequestQueue

/-!
## Lane loop and response classification

`RequestManager._request_handler` dequeues an item and runs
`while response_body is None: try: ... response_body = await
self._handle_response(response) except aiohttp.ClientOSError: sleep(10)`.
Only `ClientOSError` is caught there; every other exception raised by
`_handle_response` propagates out of `_request_handler` and terminates
the lane coroutine.  On a non-`None` body the lane schedules
`callback(response_body)` fire-and-forget, calls `task_done()`, and
paces itself.

`RiotRequestManager._handle_response` (the response classifier of
`download_lol_matches.py`) is the concrete classifier modelled here.
-/

/-- An HTTP response as seen by `_handle_response`: its status code, the
optional `Retry-After` header, and the JSON-decoded body (`none` when
`response.json()` raised and the body stayed undecodable). -/
structure Resp where
  status : ℕ
  retryAfter : Option ℚ
  json : Option ℕ
deriving DecidableEq, Repr

/-- An exception escaping `_handle_response`. -/
inductive LaneExn where
  | fatalRequestError (status : ℕ)
  | cancelRequestError (status : ℕ)
  | runtimeError (status : ℕ)
deriving DecidableEq, Repr

/-- The value produced by one call of `_handle_response`: either a
normal return (`some` payload for 200 with a decodable body, or `none`
— retry — for 429 after its sleep, for a 5xx, and for a 200 whose body
failed to decode) or a raised exception. -/
inductive HandleOut where
  | ret (body : Option ℕ)
  | exn (e : LaneExn)
deriving DecidableEq, Repr

/-- `RiotRequestManager` status classes. -/
def RiotRequestManager.try_again : List ℕ := [500, 502, 503, 504]

def RiotRequestManager.abort_request : List ℕ := [404, 405, 415]

def RiotRequestManager.raise_error : List ℕ := [400, 401, 403]

/-- `RiotRequestManager._handle_response`, returning the outcome and the
list of sleeps it performed (only the 429 branch sleeps: `Retry-After`
seconds when the header is present, else `10.0`). -/
def handle_response (r : Resp) : HandleOut × List ℚ :=
  if r.status = 200 then (HandleOut.ret r.json, [])
  else if r.status = 429 then
    (HandleOut.ret none, [match r.retryAfter with | some t => t | none => 10])
  else if r.status ∈ RiotRequestManager.raise_error then
    (HandleOut.exn (LaneExn.fatalRequestError r.status), [])
  else if r.status ∈ RiotRequestManager.try_again then
    (HandleOut.ret none, [])
  else if r.status ∈ RiotRequestManager.abort_request then
    (HandleOut.exn (LaneExn.cancelRequestError r.status), [])
  else (HandleOut.exn (LaneExn.runtimeError r.status), [])

/-- One attempt of the inner retry loop: either an HTTP response reached
`_handle_response`, or `session.get` raised `aiohttp.ClientOSError`. -/
inductive Attempt where
  | resp (r : Resp)
  | osError
deriving DecidableEq, Repr

/-- How processing of one dequeued item ends.  `sleeps` collects every
`asyncio.sleep` duration awaited while the item was in hand. -/
inductive LaneStep where
  | dispatched (payload : ℕ) (sleeps : List ℚ)
  | laneCrash (e : LaneExn) (sleeps : List ℚ)
  | stillRetrying (sleeps : List ℚ)
deriving DecidableEq, Repr

/-- The `while response_body is None` loop of `_request_handler` for one
dequeued item, fed the successive attempt outcomes.  A `ClientOSError`
is caught and sleeps `10.0`; an exception from `_handle_response`
propagates (`laneCrash`) and the lane loop is never resumed; a payload
is dispatched to the continuation fire-and-forget.  No branch touches
the queue: the same item (same URL, callback, priority) stays in hand
until it is dispatched or the lane dies, and it is never re-enqueued.
`stillRetrying` marks running out of scripted attempts mid-loop. -/
def processItemGo (acc : List ℚ) : List Attempt → LaneStep
  | [] => LaneStep.stillRetrying acc
  | Attempt.osError :: rest => processItemGo (acc ++ [10]) rest
  | Attempt.resp r :: rest =>
    match handle_response r with
    | (HandleOut.ret (some p), s) => LaneStep.dispatched p (acc ++ s)
    | (HandleOut.ret none, s) => processItemGo (acc ++ s) rest
    | (HandleOut.exn e, s) => LaneStep.laneCrash e (acc ++ s)

def processItem (attempts : List Attempt) : LaneStep :=
  processItemGo [] attempts

/-!
## Helper lemmas
-/

lemma AbsoluteRateLimit.paceN_ok (c k n : ℕ) (h : k + n ≤ c) :
    AbsoluteRateLimit.paceN n ⟨c, k⟩
      = (List.replicate n (Except.ok ()), ⟨c, k + n⟩) := by
  induction n generalizing k with
  | zero => simp [AbsoluteRateLimit.paceN]
  | succ n ih =>
    have hk : ¬ c ≤ k := by omega
    have := ih (k + 1) (by omega)
    simp [AbsoluteRateLimit.paceN, AbsoluteRateLimit.pace, hk, this,
      List.replicate_succ]
    omega

lemma AbsoluteRateLimit.pace_at_cap (s : AbsoluteRateLimit)
    (h : s.count ≤ s._count) :
    AbsoluteRateLimit.pace s = (Except.error "absolute rate limit reached", s) := by
  simp [AbsoluteRateLimit.pace, h]

/-- C7: starting fresh or just after `reset()`, the first `count` calls
to `pace()` all succeed, and the `(count+1)`-th call without an
intervening `reset()` raises the `RateLimitException` ("absolute rate
limit reached") instead of suspending (`AbsoluteRateLimit.__call__`
contains no await, so it can never suspend). -/
theorem hardCap_exact_count (s : AbsoluteRateLimit) :
    AbsoluteRateLimit.paceN s.count s.reset
        = (List.replicate s.count (Except.ok ()), ⟨s.count, s.count⟩) ∧
      (AbsoluteRateLimit.pace ⟨s.count, s.count⟩).1
        = Except.error "absolute rate limit reached" := by
  constructor
  · have := AbsoluteRateLimit.paceN_ok s.count 0 s.count (by omega)
    simpa [AbsoluteRateLimit.reset] using this
  · simp [AbsoluteRateLimit.pace]

/-- C10: once the cap is reached, a failing `pace()` call leaves the
state unchanged (the raise happens before the increment), so any number
of failing calls still leave the state unchanged, and a subsequent
`reset()` again permits exactly `count` successful calls before the
next failure. -/
theorem hardCap_failure_preserves_state (s : AbsoluteRateLimit) (n : ℕ)
    (h : s.count ≤ s._count) :
    AbsoluteRateLimit.paceN n s
        = (List.replicate n (Except.error "absolute rate limit reached"), s) ∧
      AbsoluteRateLimit.paceN s.count s.reset
        = (List.replicate s.count (Except.ok ()), ⟨s.count, s.count⟩) ∧
      (AbsoluteRateLimit.pace ⟨s.count, s.count⟩).1
        = Except.error "absolute rate limit reached" := by
  refine ⟨?_, ?_, ?_⟩
  · induction n with
    | zero => simp [AbsoluteRateLimit.paceN]
    | succ n ih =>
      simp [AbsoluteRateLimit.paceN, AbsoluteRateLimit.pace_at_cap s h, ih,
        List.replicate_succ]
  · have := AbsoluteRateLimit.paceN_ok s.count 0 s.count (by omega)
    simpa [AbsoluteRateLimit.reset] using this
  · simp [AbsoluteRateLimit.pace]

/-- Witness for C10 at `count = 2`, `_count = 2`, three failing calls. -/
theorem hardCap_failure_preserves_state_witness :
    AbsoluteRateLimit.paceN 3 ⟨2, 2⟩
        = (List.replicate 3 (Except.error "absolute rate limit reached"), ⟨2, 2⟩) ∧
      AbsoluteRateLimit.paceN 2 (AbsoluteRateLimit.reset ⟨2, 2⟩)
        = (List.replicate 2 (Except.ok ()), ⟨2, 2⟩) ∧
      (AbsoluteRateLimit.pace ⟨2, 2⟩).1
        = Except.error "absolute rate limit reached" :=
  hardCap_failure_preserves_state ⟨2, 2⟩ 3 (by decide)

/-- C4, counterexample: for `RandomizedDurationRateLimit(1, 0)` (state as
built by `__init__`: window start `0`, empty slot list) a `pace()` call
at time `1/2` does *not* suspend indefinitely: it sleeps only to the end
of the window and then raises `IndexError`
(`self._request_times[self._count]` on the empty slot list), refuting
"the call does not crash or raise". -/
theorem jittered_zero_count_call_raises :
    RandomizedDurationRateLimit.pace ⟨1, 0, 0, 0, []⟩ (1/2) [] = Except.error () := by
  norm_num [RandomizedDurationRateLimit.pace, RandomizedDurationRateLimit.reset,
    RandomizedDurationRateLimit.new_request_times, List.get?]

/-- C4, amended: with `count = 0` the slot list is empty, so every
`pace()` call takes the exhausted-slots branch, sleeps until the window
closes, resets to another empty slot list, and then raises `IndexError`
reading `self._request_times[0]`.  No call is ever authorized (`pace`
never returns normally), but the failure mode is a crash after a finite
sleep, not an indefinite suspension. -/
theorem jittered_zero_count_never_authorizes
    (s : RandomizedDurationRateLimit) (h0 : s.count = 0)
    (he : s._request_times = []) (now : ℚ) (draws : List ℚ) :
    RandomizedDurationRateLimit.pace s now draws = Except.error () := by
  have hlen : s._request_times.length ≤ s._count := by simp [he]
  have hnrt : ∀ t : ℚ, RandomizedDurationRateLimit.new_request_times t s.count draws = [] := by
    intro t
    simp [RandomizedDurationRateLimit.new_request_times, h0]
  simp [RandomizedDurationRateLimit.pace, RandomizedDurationRateLimit.reset,
    hlen, hnrt, List.get?]

/-- Witness for C4's amended theorem at a concrete state and call time. -/
theorem jittered_zero_count_never_authorizes_witness :
    RandomizedDurationRateLimit.pace ⟨2, 0, 5, 0, []⟩ 7 [3] = Except.error () :=
  jittered_zero_count_never_authorizes ⟨2, 0, 5, 0, []⟩ rfl rfl 7 [3]

/-- C1: a response with status 404 makes `_handle_response` raise
`CancelRequestError`, which `_request_handler` does not catch (only
`aiohttp.ClientOSError` is caught inside the retry loop, and nothing
else is caught in the lane loop), so the lane coroutine terminates.
No continuation is invoked and the item is not re-queued — but the lane
does *not* proceed to pace and dequeue the next item as the claim
states: it crashes. -/
theorem cancel_classification_kills_lane :
    processItem [Attempt.resp ⟨404, none, some 5⟩]
      = LaneStep.laneCrash (LaneExn.cancelRequestError 404) [] := by decide

/-- C3, counterexample: a 500 response is followed by an *immediate*
re-issue of the same request — the `try_again` branch of
`_handle_response` returns `None` without sleeping, and the
`while response_body is None` loop loops straight into the next
`session.get`.  The sleep list of the whole item is empty, refuting
"the lane suspends for a fixed short default delay". -/
theorem transient_retry_has_no_delay :
    processItem [Attempt.resp ⟨500, none, none⟩, Attempt.resp ⟨200, none, some 7⟩]
      = LaneStep.dispatched 7 [] := by decide

/-- C3, amended: a `try_again` (5xx) classification makes the lane
re-issue the request for the identical in-hand item immediately — no
sleep is performed and no queue operation happens (`processItemGo`
never touches the queue), so the item keeps its URL, continuation and
priority and is never re-enqueued; but there is no "fixed short default
delay" before the retry. -/
theorem transient_retry_same_item_immediately (r : Resp)
    (h : r.status ∈ RiotRequestManager.try_again) (rest : List Attempt) :
    processItem (Attempt.resp r :: rest) = processItem rest := by
  have h200 : r.status ≠ 200 := by
    simp [RiotRequestManager.try_again] at h; omega
  have h429 : r.status ≠ 429 := by
    simp [RiotRequestManager.try_again] at h; omega
  have hre : r.status ∉ RiotRequestManager.raise_error := by
    simp [RiotRequestManager.try_again] at h
    simp [RiotRequestManager.raise_error]; omega
  simp [processItem, processItemGo, handle_response, h200, h429, hre, h]

/-- Witness for C3's amended theorem: the 500-then-200 run equals the
run that starts directly at the 200 response. -/
theorem transient_retry_same_item_immediately_witness :
    processItem [Attempt.resp ⟨500, none, none⟩, Attempt.resp ⟨200, none, some 7⟩]
        = processItem [Attempt.resp ⟨200, none, some 7⟩] :=
  transient_retry_same_item_immediately ⟨500, none, none⟩ (by decide)
    [Attempt.resp ⟨200, none, some 7⟩]

/-- C6: `schedule` suspends the caller exactly when the queue was
configured with a positive `max_requests_inflight` and currently holds
that many items (the invariant hypothesis says the queue never holds
more than its positive capacity, which every run of puts and gets
preserves); with `max_requests_inflight = 0` (the constructor default,
i.e. unset) or negative, `full()` is always `False` and `schedule`
appends the entry and returns immediately. -/
theorem schedule_backpressure (q : RequestQueue) (url : String) (cb : ℕ)
    (priority : ℤ) (now : ℚ)
    (hinv : 0 < q.maxsize → (q.items.length : ℤ) ≤ q.maxsize) :
    ((RequestQueue.schedule q url cb priority now).1 = true
        ↔ 0 < q.maxsize ∧ (q.items.length : ℤ) = q.maxsize) ∧
      ((RequestQueue.schedule q url cb priority now).1 = false →
        (RequestQueue.schedule q url cb priority now).2.items
          = q.items ++ [⟨priority, now, url, cb⟩]) := by
  rcases le_or_lt q.maxsize 0 with hm | hm
  · have hfull : q.full = false := by
      simp [RequestQueue.full, hm]
    constructor
    · simp [RequestQueue.schedule, hfull]
      omega
    · intro _
      simp [RequestQueue.schedule, hfull]
  · have hle := hinv hm
    have hfull : q.full = decide (q.maxsize ≤ (q.items.length : ℤ)) := by
      simp [RequestQueue.full]
      omega
    by_cases hat : q.maxsize ≤ (q.items.length : ℤ)
    · have : q.full = true := by simp [hfull, hat]
      constructor
      · simp [RequestQueue.schedule, this]
        omega
      · intro hc
        simp [RequestQueue.schedule, this] at hc
    · have : q.full = false := by simp [hfull, hat]
      constructor
      · simp [RequestQueue.schedule, this]
        omega
      · intro _
        simp [RequestQueue.schedule, this]

/-- Witness for C6: a queue of capacity 2 holding 2 items suspends the
scheduler, and the same queue holding 1 item appends immediately. -/
theorem schedule_backpressure_witness :
    ((RequestQueue.schedule ⟨2, [⟨0, 0, "a", 1⟩, ⟨0, 0, "b", 2⟩]⟩ "c" 3 1 4).1 = true
        ↔ 0 < (2 : ℤ) ∧ (([⟨0, 0, "a", 1⟩, ⟨0, 0, "b", 2⟩] : List Entry).length : ℤ) = 2) ∧
      ((RequestQueue.schedule ⟨2, [⟨0, 0, "a", 1⟩, ⟨0, 0, "b", 2⟩]⟩ "c" 3 1 4).1 = false →
        (RequestQueue.schedule ⟨2, [⟨0, 0, "a", 1⟩, ⟨0, 0, "b", 2⟩]⟩ "c" 3 1 4).2.items
          = [⟨0, 0, "a", 1⟩, ⟨0, 0, "b", 2⟩] ++ [⟨1, 4, "c", 3⟩]) :=
  schedule_backpressure ⟨2, [⟨0, 0, "a", 1⟩, ⟨0, 0, "b", 2⟩]⟩ "c" 3 1 4 (by intro h; simp)

/-- C9, counterexample: two requests scheduled with equal priority,
equal enqueue timestamp, equal URL *and the same continuation object*
(e.g. the same logical request scheduled twice with one shared
callback) do not raise: Python tuple comparison finds all four
components equal (`==` on the same function object is `True`) and
returns `False`, so `heappush` inserts the second entry normally.  The
claim's "raises TypeError" therefore does not hold for all inputs with
equal priority, timestamp and URL. -/
theorem equal_entries_insert_without_typeerror :
    heapPushSecond ⟨0, 0, "u", 1⟩ ⟨0, 0, "u", 1⟩
      = Except.ok [⟨0, 0, "u", 1⟩, ⟨0, 0, "u", 1⟩] := by
  norm_num [heapPushSecond, entryLtPy]

/-- C9, amended: if the two scheduled requests carry equal priority,
equal enqueue timestamp and equal URL but *distinct* (non-identical)
continuation callbacks, then inserting the second entry into the
priority queue raises `TypeError`: the tuple comparison performed by
`heappush` falls through to the callback objects, which are not
orderable. -/
theorem equal_key_distinct_callbacks_typeerror (e1 e2 : Entry)
    (hp : e1.priority = e2.priority) (ht : e1.ts = e2.ts)
    (hu : e1.url = e2.url) (hcb : e1.cb ≠ e2.cb) :
    heapPushSecond e1 e2 = Except.error () := by
  have : entryLtPy e2 e1 = Except.error () := by
    simp [entryLtPy, hp.symm, ht.symm, hu.symm, Ne.symm hcb]
  simp [heapPushSecond, this]

/-- Witness for C9's amended theorem at two concrete entries differing
only in the callback object. -/
theorem equal_key_distinct_callbacks_typeerror_witness :
    heapPushSecond ⟨0, 3, "u", 1⟩ ⟨0, 3, "u", 2⟩ = Except.error () :=
  equal_key_distinct_callbacks_typeerror ⟨0, 3, "u", 1⟩ ⟨0, 3, "u", 2⟩
    rfl rfl rfl (by decide)

lemma entryLtPy_ok_iff (a b : Entry) (bv : Bool)
    (h : entryLtPy a b = Except.ok bv) :
    bv = true ↔ entryKey a < entryKey b := by
  by_cases hp : a.priority = b.priority
  · by_cases ht : a.ts = b.ts
    · by_cases hu : a.url = b.url
      · by_cases hc : a.cb = b.cb
        · simp [entryLtPy, hp, ht, hu, hc] at h
          subst h
          simp [entryKey, Prod.Lex.lt_iff, hp, ht, hu, hc]
        · simp [entryLtPy, hp, ht, hu, hc] at h
      · simp [entryLtPy, hp, ht, hu] at h
        subst h
        simp [entryKey, Prod.Lex.lt_iff, hp, ht, hu]
    · simp [entryLtPy, hp, ht] at h
      subst h
      simp [entryKey, Prod.Lex.lt_iff, hp, ht]
  · simp [entryLtPy, hp] at h
    subst h
    simp [entryKey, Prod.Lex.lt_iff, hp]

@[simp] lemma exceptErrorBind {ε α β : Type} (e : ε) (f : α → Except ε β) :
    ((Except.error e : Except ε α) >>= f) = Except.error e := rfl

@[simp] lemma exceptOkBind {ε α β : Type} (a : α) (f : α → Except ε β) :
    ((Except.ok a : Except ε α) >>= f) = f a := rfl

@[simp] lemma exceptMapOk {ε α β : Type} (f : α → β) (a : α) :
    (f <$> (Except.ok a : Except ε α)) = Except.ok (f a) := rfl

@[simp] lemma exceptMapError {ε α β : Type} (f : α → β) (e : ε) :
    (f <$> (Except.error e : Except ε α)) = Except.error e := rfl

lemma selectMin_spec (l : List Entry) :
    ∀ (e m : Entry) (rest : List Entry),
      selectMin e l = Except.ok (m, rest) →
        (m :: rest).Perm (e :: l) ∧ ∀ x ∈ e :: l, entryKey m ≤ entryKey x := by
  induction l with
  | nil =>
    intro e m rest h
    simp [selectMin] at h
    rcases h with ⟨rfl, rfl⟩
    exact ⟨List.Perm.refl _, by simp⟩
  | cons x xs ih =>
    intro e m rest h
    cases hlt : entryLtPy x e with
    | error u =>
      simp [selectMin, hlt] at h
    | ok b =>
      cases b with
      | true =>
        have hxe : entryKey x < entryKey e := (entryLtPy_ok_iff x e true hlt).mp rfl
        cases hrec : selectMin x xs with
        | error u =>
          simp [selectMin, hlt, hrec] at h
        | ok mr =>
          obtain ⟨m1, r1⟩ := mr
          simp [selectMin, hlt, hrec] at h
          rcases h with ⟨rfl, rfl⟩
          obtain ⟨hperm, hmin⟩ := ih x m1 r1 hrec
          refine ⟨?_, ?_⟩
          · exact (List.Perm.swap e m1 r1).trans (hperm.cons e)
          · intro y hy
            rcases List.mem_cons.mp hy with rfl | hy'
            · exact le_trans (hmin x (by simp)) (le_of_lt hxe)
            · exact hmin y hy'
      | false =>
        have hxe : ¬ entryKey x < entryKey e := by
          intro hc
          exact absurd ((entryLtPy_ok_iff x e false hlt).mpr hc) (by simp)
        cases hrec : selectMin e xs with
        | error u =>
          simp [selectMin, hlt, hrec] at h
        | ok mr =>
          obtain ⟨m1, r1⟩ := mr
          simp [selectMin, hlt, hrec] at h
          rcases h with ⟨rfl, rfl⟩
          obtain ⟨hperm, hmin⟩ := ih e m1 r1 hrec
          refine ⟨?_, ?_⟩
          · exact ((List.Perm.swap x m1 r1).trans (hperm.cons x)).trans
              (List.Perm.swap e x xs)
          · intro y hy
            rcases List.mem_cons.mp hy with rfl | hy'
            · exact hmin y (by simp)
            · rcases List.mem_cons.mp hy' with rfl | hy2
              · exact le_trans (hmin e (by simp)) (not_lt.mp hxe)
              · exact hmin y (by simp [hy2])

lemma dequeueAllGo_spec :
    ∀ (n : ℕ) (q out : List Entry), q.length ≤ n →
      dequeueAllGo n q = Except.ok out →
        out.Perm q ∧ out.Pairwise (fun a b => entryKey a ≤ entryKey b) := by
  intro n
  induction n with
  | zero =>
    intro q out hlen h
    cases q with
    | nil =>
      simp [dequeueAllGo] at h
      subst h
      simp
    | cons e es => simp at hlen
  | succ n ih =>
    intro q out hlen h
    cases q with
    | nil =>
      simp [dequeueAllGo] at h
      subst h
      simp
    | cons e es =>
      cases hsel : selectMin e es with
      | error u => simp [dequeueAllGo, hsel] at h
      | ok mr =>
        obtain ⟨m, rest⟩ := mr
        obtain ⟨hperm1, hmin⟩ := selectMin_spec es e m rest hsel
        cases hgo : dequeueAllGo n rest with
        | error u => simp [dequeueAllGo, hsel, hgo] at h
        | ok out1 =>
          simp [dequeueAllGo, hsel, hgo] at h
          subst h
          have hrl : rest.length ≤ n := by
            have := hperm1.length_eq
            simp at this hlen
            omega
          obtain ⟨hperm2, hpw⟩ := ih rest out1 hrl hgo
          refine ⟨(hperm2.cons m).trans hperm1, List.pairwise_cons.mpr ⟨?_, hpw⟩⟩
          intro b hb
          exact hmin b (hperm1.mem_iff.mp (List.mem_cons_of_mem m (hperm2.mem_iff.mp hb)))

/-- C5: whenever the entries currently in the shared priority queue are
handed out by successive `get()` calls without a comparison `TypeError`,
they come out as a permutation of the queue contents in which every
earlier-dequeued entry has a numerically smaller-or-equal priority, and
among equal priorities a smaller-or-equal enqueue timestamp — i.e. the
smaller priority is dequeued first regardless of enqueue order, and
FIFO order holds among equal priorities. -/
theorem dequeue_priority_fifo (q out : List Entry)
    (h : dequeueAll q = Except.ok out) :
    out.Perm q ∧ out.Pairwise dequeuedBefore := by
  obtain ⟨hperm, hpw⟩ := dequeueAllGo_spec q.length q out le_rfl h
  refine ⟨hperm, hpw.imp ?_⟩
  intro a b hab
  rcases (Prod.Lex.le_iff _ _).mp hab with hlt | ⟨heq, htail⟩
  · exact ⟨le_of_lt hlt, fun hpq => absurd (hpq ▸ hlt) (lt_irrefl _)⟩
  · refine ⟨le_of_eq heq, fun _ => ?_⟩
    rcases (Prod.Lex.le_iff _ _).mp htail with hlt2 | ⟨heq2, _⟩
    · exact le_of_lt hlt2
    · exact le_of_eq heq2

/-- Witness for C5: three concrete entries — two of priority 1 with
timestamps 3 and 9, one of priority 2 — dequeue as priority 1 (ts 3),
priority 1 (ts 9), priority 2, regardless of the enqueue order. -/
theorem dequeue_priority_fifo_witness :
    ([⟨1, 3, "c", 3⟩, ⟨1, 9, "a", 2⟩, ⟨2, 5, "b", 1⟩] : List Entry).Perm
        [⟨2, 5, "b", 1⟩, ⟨1, 9, "a", 2⟩, ⟨1, 3, "c", 3⟩] ∧
      ([⟨1, 3, "c", 3⟩, ⟨1, 9, "a", 2⟩, ⟨2, 5, "b", 1⟩] : List Entry).Pairwise
        dequeuedBefore :=
  dequeue_priority_fifo [⟨2, 5, "b", 1⟩, ⟨1, 9, "a", 2⟩, ⟨1, 3, "c", 3⟩]
    [⟨1, 3, "c", 3⟩, ⟨1, 9, "a", 2⟩, ⟨2, 5, "b", 1⟩]
    (by norm_num [dequeueAll, dequeueAllGo, selectMin, entryLtPy])

lemma DurationRateLimit.paceStep_reset_elapsed (s : DurationRateLimit) (now : ℚ)
    (h1 : s.duration < now - s._time) (hc : 1 ≤ s.count) :
    s.paceStep now = ((now, now), ⟨s.duration, s.count, now, 1⟩) := by
  have : ¬ s.count ≤ 0 := by omega
  simp [DurationRateLimit.paceStep, h1, this]

lemma DurationRateLimit.paceStep_sleep (s : DurationRateLimit) (now : ℚ)
    (h1 : ¬ s.duration < now - s._time) (hc : s.count ≤ s._count) :
    s.paceStep now
      = ((max now (s._time + s.duration), max now (s._time + s.duration)),
          ⟨s.duration, s.count, max now (s._time + s.duration), 1⟩) := by
  simp [DurationRateLimit.paceStep, h1, hc]

lemma DurationRateLimit.paceStep_consume (s : DurationRateLimit) (now : ℚ)
    (h1 : ¬ s.duration < now - s._time) (hc : ¬ s.count ≤ s._count) :
    s.paceStep now = ((now, s._time), ⟨s.duration, s.count, s._time, s._count + 1⟩) := by
  simp [DurationRateLimit.paceStep, h1, hc]

lemma tagCount_cons (w : ℚ) (p : ℚ × ℚ) (t : List (ℚ × ℚ)) :
    tagCount w (p :: t) = (if p.2 = w then 1 else 0) + tagCount w t := by
  by_cases h : p.2 = w
  · simp [tagCount, List.filter_cons, h]
    omega
  · simp [tagCount, List.filter_cons, h]

lemma tagCount_eq_zero (w : ℚ) (t : List (ℚ × ℚ)) (h : ∀ p ∈ t, p.2 ≠ w) :
    tagCount w t = 0 := by
  induction t with
  | nil => simp [tagCount]
  | cons p t ih =>
    have hp := h p (List.mem_cons_self p t)
    have ht := ih fun q hq => h q (List.mem_cons_of_mem p hq)
    simp [tagCount_cons, hp, ht]

lemma trace_tag_bound (calls : List ℚ) :
    ∀ s : DurationRateLimit, 0 < s.duration → 1 ≤ s.count → s._count ≤ s.count →
      (∀ p ∈ DurationRateLimit.trace s calls, s._time ≤ p.2) ∧
      tagCount s._time (DurationRateLimit.trace s calls) ≤ s.count - s._count ∧
      ∀ w, w ≠ s._time → tagCount w (DurationRateLimit.trace s calls) ≤ s.count := by
  induction calls with
  | nil =>
    intro s _ _ _
    refine ⟨by simp [DurationRateLimit.trace], ?_, fun w _ => ?_⟩ <;>
      simp [DurationRateLimit.trace, tagCount]
  | cons now rest ih =>
    intro s hD hC hcnt
    by_cases hel : s.duration < now - s._time
    · -- elapsed-time reset, then consume a slot of the new window at `now`
      have htr : DurationRateLimit.trace s (now :: rest)
          = (now, now) :: DurationRateLimit.trace ⟨s.duration, s.count, now, 1⟩ rest := by
        simp [DurationRateLimit.trace, DurationRateLimit.paceStep_reset_elapsed s now hel hC]
      have hIH := ih ⟨s.duration, s.count, now, 1⟩ hD hC hC
      have htags : ∀ p ∈ DurationRateLimit.trace ⟨s.duration, s.count, now, 1⟩ rest,
          now ≤ p.2 := hIH.1
      have hcur : tagCount now (DurationRateLimit.trace ⟨s.duration, s.count, now, 1⟩ rest)
          ≤ s.count - 1 := hIH.2.1
      have hoth : ∀ w, w ≠ now →
          tagCount w (DurationRateLimit.trace ⟨s.duration, s.count, now, 1⟩ rest)
            ≤ s.count := hIH.2.2
      have htlt : s._time < now := by linarith
      have hzero : tagCount s._time
          (DurationRateLimit.trace ⟨s.duration, s.count, now, 1⟩ rest) = 0 := by
        refine tagCount_eq_zero _ _ fun p hp hpw => ?_
        have := htags p hp
        rw [hpw] at this
        linarith
      refine ⟨?_, ?_, ?_⟩
      · rw [htr]
        intro p hp
        rcases List.mem_cons.mp hp with rfl | hp'
        · exact le_of_lt htlt
        · exact le_trans (le_of_lt htlt) (htags p hp')
      · rw [htr, tagCount_cons]
        have : ¬ ((now, now) : ℚ × ℚ).2 = s._time := fun hc => absurd hc (by simpa using ne_of_gt htlt)
        simp [this, hzero]
      · intro w hw
        rw [htr, tagCount_cons]
        by_cases hwn : w = now
        · subst hwn
          rw [if_pos (rfl : ((w, w) : ℚ × ℚ).2 = w)]
          omega
        · have : ¬ ((now, now) : ℚ × ℚ).2 = w := by simpa using fun hc => hwn hc.symm
          rw [if_neg this]
          simpa using hoth w hwn
    · by_cases hcn : s.count ≤ s._count
      · -- slots exhausted: sleep to the window end, reset there, consume
        have htr : DurationRateLimit.trace s (now :: rest)
            = (max now (s._time + s.duration), max now (s._time + s.duration)) ::
                DurationRateLimit.trace
                  ⟨s.duration, s.count, max now (s._time + s.duration), 1⟩ rest := by
          simp [DurationRateLimit.trace, DurationRateLimit.paceStep_sleep s now hel hcn]
        have hIH := ih ⟨s.duration, s.count, max now (s._time + s.duration), 1⟩ hD hC hC
        have htags : ∀ p ∈ DurationRateLimit.trace
            ⟨s.duration, s.count, max now (s._time + s.duration), 1⟩ rest,
            max now (s._time + s.duration) ≤ p.2 := hIH.1
        have hcur : tagCount (max now (s._time + s.duration))
            (DurationRateLimit.trace
              ⟨s.duration, s.count, max now (s._time + s.duration), 1⟩ rest)
            ≤ s.count - 1 := hIH.2.1
        have hoth : ∀ w, w ≠ max now (s._time + s.duration) →
            tagCount w (DurationRateLimit.trace
              ⟨s.duration, s.count, max now (s._time + s.duration), 1⟩ rest)
              ≤ s.count := hIH.2.2
        have htlt : s._time < max now (s._time + s.duration) := by
          have := le_max_right now (s._time + s.duration)
          linarith
        have hzero : tagCount s._time (DurationRateLimit.trace
            ⟨s.duration, s.count, max now (s._time + s.duration), 1⟩ rest) = 0 := by
          refine tagCount_eq_zero _ _ fun p hp hpw => ?_
          have := htags p hp
          rw [hpw] at this
          linarith
        refine ⟨?_, ?_, ?_⟩
        · rw [htr]
          intro p hp
          rcases List.mem_cons.mp hp with rfl | hp'
          · exact le_of_lt htlt
          · exact le_trans (le_of_lt htlt) (htags p hp')
        · rw [htr, tagCount_cons]
          have : ¬ ((max now (s._time + s.duration), max now (s._time + s.duration)) : ℚ × ℚ).2
              = s._time := fun hc => absurd hc (by simpa using ne_of_gt htlt)
          simp [this, hzero]
        · intro w hw
          rw [htr, tagCount_cons]
          by_cases hwn : w = max now (s._time + s.duration)
          · rw [hwn, if_pos (rfl :
              ((max now (s._time + s.duration), max now (s._time + s.duration)) : ℚ × ℚ).2
                = max now (s._time + s.duration))]
            omega
          · have : ¬ ((max now (s._time + s.duration), max now (s._time + s.duration)) : ℚ × ℚ).2
                = w := by simpa using fun hc => hwn hc.symm
            rw [if_neg this]
            simpa using hoth w hwn
      · -- consume the next slot of the current window
        have htr : DurationRateLimit.trace s (now :: rest)
            = (now, s._time) ::
                DurationRateLimit.trace ⟨s.duration, s.count, s._time, s._count + 1⟩ rest := by
          simp [DurationRateLimit.trace, DurationRateLimit.paceStep_consume s now hel hcn]
        have hIH := ih ⟨s.duration, s.count, s._time, s._count + 1⟩ hD hC
          (show s._count + 1 ≤ s.count by omega)
        have htags : ∀ p ∈ DurationRateLimit.trace
            ⟨s.duration, s.count, s._time, s._count + 1⟩ rest,
            s._time ≤ p.2 := hIH.1
        have hcur : tagCount s._time
            (DurationRateLimit.trace ⟨s.duration, s.count, s._time, s._count + 1⟩ rest)
            ≤ s.count - (s._count + 1) := hIH.2.1
        have hoth : ∀ w, w ≠ s._time →
            tagCount w (DurationRateLimit.trace
              ⟨s.duration, s.count, s._time, s._count + 1⟩ rest)
              ≤ s.count := hIH.2.2
        refine ⟨?_, ?_, ?_⟩
        · rw [htr]
          intro p hp
          rcases List.mem_cons.mp hp with rfl | hp'
          · exact le_refl _
          · exact htags p hp'
        · rw [htr, tagCount_cons]
          rw [if_pos (rfl : ((now, s._time) : ℚ × ℚ).2 = s._time)]
          omega
        · intro w hw
          rw [htr, tagCount_cons]
          have : ¬ ((now, s._time) : ℚ × ℚ).2 = w := by simpa using fun hc => hw hc.symm
          rw [if_neg this]
          simpa using hoth w hw

/-- C2, amended: `DurationRateLimit` is a *fixed-window* limiter — for
every sequence of `pace()` calls on a freshly constructed
`SlidingWindowCap(duration, count)` (with positive duration and
`count ≥ 1`), at most `count` calls return inside each of the limiter's
own windows (returns accounted to the window start in force at the
moment of return).  The claim's stronger bound — at most `count`
returns in *any* wall-clock interval of length `duration` — is false:
a burst at the end of one window followed by a burst at the start of
the next puts up to `2*count` returns into one sliding interval. -/
theorem fixed_window_count_bound (duration : ℚ) (count : ℕ) (t0 : ℚ)
    (calls : List ℚ) (hD : 0 < duration) (hC : 1 ≤ count) (w : ℚ) :
    tagCount w (DurationRateLimit.trace ⟨duration, count, t0, 0⟩ calls) ≤ count := by
  obtain ⟨-, hcur, hoth⟩ :=
    trace_tag_bound calls ⟨duration, count, t0, 0⟩ hD hC (Nat.zero_le _)
  by_cases hw : w = t0
  · subst hw
    exact le_trans hcur (Nat.sub_le _ _)
  · exact hoth w hw

/-- Witness for C2's amended theorem: a fresh `SlidingWindowCap(1, 2)`
paced at times 0, 0, 1/2 never exceeds 2 returns per window. -/
theorem fixed_window_count_bound_witness :
    tagCount 0 (DurationRateLimit.trace ⟨1, 2, 0, 0⟩ [0, 0, 1/2]) ≤ 2 :=
  fixed_window_count_bound 1 2 0 [0, 0, 1/2] (by norm_num) (by norm_num) 0

/-- C2, counterexample: on `SlidingWindowCap(1, 2)` started at time 0,
the realizable call sequence 9/10, 19/20, 24/25, 1 produces returns at
9/10, 19/20, 1 and 1 — four `pace()` returns inside the single
wall-clock interval `[9/10, 9/10 + 1]` of length `duration`, exceeding
`count = 2`.  The window-remainder sleep of the third call ends exactly
at the fixed window boundary, after which the counter is reset and two
more calls return immediately. -/
theorem sliding_window_bound_fails :
    admissibleRun
        ((DurationRateLimit.trace ⟨1, 2, 0, 0⟩ [9/10, 19/20, 24/25, 1]).map Prod.fst)
        [9/10, 19/20, 24/25, 1] ∧
      (DurationRateLimit.trace ⟨1, 2, 0, 0⟩ [9/10, 19/20, 24/25, 1]).map Prod.fst
        = [9/10, 19/20, 1, 1] ∧
      (((DurationRateLimit.trace ⟨1, 2, 0, 0⟩ [9/10, 19/20, 24/25, 1]).map Prod.fst).filter
          fun r => decide (9/10 ≤ r) && decide (r ≤ 9/10 + 1)).length = 4 ∧
      (4 : ℕ) > (⟨1, 2, 0, 0⟩ : DurationRateLimit).count := by
  have htr : (DurationRateLimit.trace ⟨1, 2, 0, 0⟩ [9/10, 19/20, 24/25, 1]).map Prod.fst
      = [9/10, 19/20, 1, 1] := by
    norm_num [DurationRateLimit.trace, DurationRateLimit.paceStep]
  refine ⟨?_, htr, ?_, by norm_num⟩
  · rw [htr]
    constructor
    · simp [List.chain'_cons]
      norm_num
    · intro p hp
      simp [List.zip] at hp
      rcases hp with rfl | rfl | rfl <;> norm_num
  · rw [htr]
    norm_num [List.filter_cons]

lemma new_request_times_sorted (t : ℚ) (c : ℕ) (draws : List ℚ) :
    (RandomizedDurationRateLimit.new_request_times t c draws).Sorted (· ≤ ·) := by
  unfold RandomizedDurationRateLimit.new_request_times
  exact List.sorted_insertionSort _ _

lemma new_request_times_bounds (t D : ℚ) (c : ℕ) (draws : List ℚ)
    (hd : ∀ u ∈ draws, 0 ≤ u ∧ u ≤ D) :
    ∀ x ∈ RandomizedDurationRateLimit.new_request_times t c draws,
      t ≤ x ∧ x ≤ t + D := by
  intro x hx
  unfold RandomizedDurationRateLimit.new_request_times at hx
  rw [List.mem_insertionSort] at hx
  obtain ⟨u, hu, rfl⟩ := List.mem_map.mp hx
  have := hd u (List.take_subset c draws hu)
  constructor <;> linarith [this.1, this.2]

lemma RandomizedDurationRateLimit.pace_exhausted
    (s : RandomizedDurationRateLimit) (now : ℚ) (draws : List ℚ)
    (hlen : s._request_times.length ≤ s._count) :
    s.pace now draws =
      match (RandomizedDurationRateLimit.new_request_times
          (max now (s._time + s.duration)) s.count draws).get? 0 with
      | none => Except.error ()
      | some t =>
        Except.ok (max (max now (s._time + s.duration)) t,
          ⟨s.duration, s.count, max now (s._time + s.duration), 1,
            RandomizedDurationRateLimit.new_request_times
              (max now (s._time + s.duration)) s.count draws⟩) := by
  simp [RandomizedDurationRateLimit.pace, RandomizedDurationRateLimit.reset, hlen]

lemma RandomizedDurationRateLimit.pace_elapsed
    (s : RandomizedDurationRateLimit) (now : ℚ) (draws : List ℚ)
    (hlen : ¬ s._request_times.length ≤ s._count)
    (helap : s.duration < now - s._time) :
    s.pace now draws =
      match (RandomizedDurationRateLimit.new_request_times now s.count draws).get? 0 with
      | none => Except.error ()
      | some t =>
        Except.ok (max now t,
          ⟨s.duration, s.count, now, 1,
            RandomizedDurationRateLimit.new_request_times now s.count draws⟩) := by
  simp [RandomizedDurationRateLimit.pace, RandomizedDurationRateLimit.reset, hlen, helap]

lemma RandomizedDurationRateLimit.pace_consume
    (s : RandomizedDurationRateLimit) (now : ℚ) (draws : List ℚ)
    (hlen : ¬ s._request_times.length ≤ s._count)
    (helap : ¬ s.duration < now - s._time) :
    s.pace now draws =
      match s._request_times.get? s._count with
      | none => Except.error ()
      | some t =>
        Except.ok (max now t,
          ⟨s.duration, s.count, s._time, s._count + 1, s._request_times⟩) := by
  simp [RandomizedDurationRateLimit.pace, RandomizedDurationRateLimit.reset, hlen, helap]

/-- C8: for a wellformed `JitteredSlidingWindowCap` state (sorted slot
list inside the current window — as produced by the constructor and by
every `reset` from in-range uniform draws), a successful `pace()` call
keeps the state wellformed, and:
the slot list stays sorted ascending; when the call stays inside the
current window it consumes the slot at index `_count` and advances the
consumption counter by one (front-to-back consumption, so successive
in-window slot times are monotonically non-decreasing); when the call
opens a new window, the new window start lies at or after the previous
window's end `_time + duration`; and the authorized return time always
lies inside the window of the state that served it — so the authorized
call times of two successive windows never overlap. -/
theorem jittered_slots_sorted_windows_separated
    (s : RandomizedDurationRateLimit) (now ret : ℚ) (draws : List ℚ)
    (s2 : RandomizedDurationRateLimit)
    (hWF : s.WF) (hD : 0 < s.duration) (hnow : s._time ≤ now)
    (hdraws : ∀ u ∈ draws, 0 ≤ u ∧ u ≤ s.duration)
    (h : s.pace now draws = Except.ok (ret, s2)) :
    s2.WF ∧
      s2._request_times.Sorted (· ≤ ·) ∧
      s._time ≤ s2._time ∧
      (s2._time = s._time →
        s2._request_times = s._request_times ∧ s2._count = s._count + 1) ∧
      (s2._time ≠ s._time → s._time + s.duration ≤ s2._time) ∧
      s2._time ≤ ret ∧ ret ≤ s2._time + s.duration := by
  by_cases hlen : s._request_times.length ≤ s._count
  · -- slots exhausted: sleep to the window end, open a new window there
    rw [RandomizedDurationRateLimit.pace_exhausted s now draws hlen] at h
    cases hget : (RandomizedDurationRateLimit.new_request_times
        (max now (s._time + s.duration)) s.count draws).get? 0 with
    | none => rw [hget] at h; simp at h
    | some t0 =>
      rw [hget] at h
      simp only [Except.ok.injEq, Prod.mk.injEq] at h
      obtain ⟨hret, hs2⟩ := h
      subst hs2
      have hwt : s._time + s.duration ≤ max now (s._time + s.duration) := le_max_right _ _
      have htlt : s._time < max now (s._time + s.duration) := by linarith
      have hb := new_request_times_bounds (max now (s._time + s.duration)) s.duration
        s.count draws hdraws
      have ht0 := hb t0 (List.get?_mem hget)
      refine ⟨⟨new_request_times_sorted _ _ _, hb⟩, new_request_times_sorted _ _ _,
        le_of_lt htlt, ?_, fun _ => hwt, ?_, ?_⟩
      · intro heq
        exact absurd heq (ne_of_gt htlt)
      · rw [← hret]
        exact le_max_left _ _
      · rw [← hret]
        exact max_le (by linarith) ht0.2
  · by_cases helap : s.duration < now - s._time
    · -- wall clock already past the window end: open a new window at `now`
      rw [RandomizedDurationRateLimit.pace_elapsed s now draws hlen helap] at h
      cases hget : (RandomizedDurationRateLimit.new_request_times now s.count draws).get? 0 with
      | none => rw [hget] at h; simp at h
      | some t0 =>
        rw [hget] at h
        simp only [Except.ok.injEq, Prod.mk.injEq] at h
        obtain ⟨hret, hs2⟩ := h
        subst hs2
        have hwt : s._time + s.duration ≤ now := by linarith
        have htlt : s._time < now := by linarith
        have hb := new_request_times_bounds now s.duration s.count draws hdraws
        have ht0 := hb t0 (List.get?_mem hget)
        refine ⟨⟨new_request_times_sorted _ _ _, hb⟩, new_request_times_sorted _ _ _,
          le_of_lt htlt, ?_, fun _ => hwt, ?_, ?_⟩
        · intro heq
          exact absurd heq (ne_of_gt htlt)
        · rw [← hret]
          exact le_max_left _ _
        · rw [← hret]
          exact max_le (by linarith) ht0.2
    · -- consume the next precomputed slot of the current window
      rw [RandomizedDurationRateLimit.pace_consume s now draws hlen helap] at h
      cases hget : s._request_times.get? s._count with
      | none => rw [hget] at h; simp at h
      | some t0 =>
        rw [hget] at h
        simp only [Except.ok.injEq, Prod.mk.injEq] at h
        obtain ⟨hret, hs2⟩ := h
        subst hs2
        have ht0 := hWF.2 t0 (List.get?_mem hget)
        have hnd : now ≤ s._time + s.duration := by linarith
        refine ⟨⟨hWF.1, hWF.2⟩, hWF.1, le_refl _, fun _ => ⟨rfl, rfl⟩, ?_, ?_, ?_⟩
        · intro hne
          exact absurd rfl hne
        · rw [← hret]
          exact le_trans hnow (le_max_left _ _)
        · rw [← hret]
          exact max_le hnd ht0.2

/-- Witness for C8 at a concrete wellformed state: window `[0, 1]` with
slots `[1/4, 3/4]`, paced at time 0 — the first slot is consumed and
the call is authorized at time 1/4 inside the same window. -/
theorem jittered_slots_sorted_windows_separated_witness :
    (⟨1, 2, 0, 1, [1/4, 3/4]⟩ : RandomizedDurationRateLimit).WF ∧
      ([1/4, 3/4] : List ℚ).Sorted (· ≤ ·) ∧
      (0 : ℚ) ≤ 0 ∧
      ((0 : ℚ) = 0 → ([1/4, 3/4] : List ℚ) = [1/4, 3/4] ∧ (1 : ℕ) = 0 + 1) ∧
      ((0 : ℚ) ≠ 0 → (0 : ℚ) + 1 ≤ 0) ∧
      (0 : ℚ) ≤ 1/4 ∧ (1/4 : ℚ) ≤ 0 + 1 :=
  jittered_slots_sorted_windows_separated ⟨1, 2, 0, 0, [1/4, 3/4]⟩ 0 (1/4) []
    ⟨1, 2, 0, 1, [1/4, 3/4]⟩
    (by constructor
        · simp [List.sorted_cons]
          norm_num
        · intro x hx
          rcases List.mem_cons.mp hx with rfl | hx'
          · norm_num
          · simp at hx'
            rw [hx']
            norm_num)
    (by norm_num) (le_refl 0) (by simp)
    (by norm_num [RandomizedDurationRateLimit.pace, RandomizedDurationRateLimit.reset,
      List.get?])
